import Mathlib

/-!
Shallow embedding of `quickfilter.go` (package quickfilter): a word-packed
bit set over machine words, with an ascending iterator.

Modelling conventions:
* Go `int` (64-bit signed) is `Int`; no arithmetic here approaches 2^63, so
  overflow is immaterial. Go `/` on ints is truncated division (`Int.tdiv`),
  and `uint(pos) % 64` equals the Euclidean `pos % 64`.
* Go `uint` (64-bit) words are `Nat`; every operation of the source keeps a
  word below 2^64 (or of bounded words produces bounded words), so no
  wrap-around arises and no `% 2^64` is needed.
* A Go slice of words is a `List Nat`; an out-of-range slice access panics,
  so fallible operations return `Option`.
-/

namespace Quickfilter

/-- `bits.UintSize` on a 64-bit platform. -/
def wordSize : Nat := 64

/-- `^uint(0)`: a word with all 64 bits set. -/
def allOnes : Nat := 2 ^ wordSize - 1

/-- `bits.OnesCount` on a `uint` value: the number of set bits among the 64
bit positions of the word. -/
def popcount (w : Nat) : Nat := (List.range wordSize).countP (fun i => w.testBit i)

/-- `offsets(pos)` from the source: word index `pos / bits.UintSize` with Go's
truncated integer division, and mask `1 << (uint(pos) % bits.UintSize)`.
The conversion `uint(pos)` is `pos` mod 2^64, and since 64 divides 2^64 the
shift amount is the Euclidean `pos % 64`. -/
def offsets (pos : Int) : Int × Nat :=
  (pos.tdiv (wordSize : Int), 2 ^ (pos % (wordSize : Int)).toNat)

structure QuickFilter where
  len : Int
  sourceLen : Int
  bits : List Nat
deriving DecidableEq

/-- `New(sourceLen)`: allocates `lastIndex+1` zero words where
`lastIndex, _ = offsets(sourceLen - 1)`. -/
def New (sourceLen : Int) : QuickFilter :=
  { len := 0, sourceLen := sourceLen,
    bits := List.replicate ((offsets (sourceLen - 1)).1 + 1).toNat 0 }

/-- `Add(index)`: `qf.bits[index] |= mask; qf.len++`. The slice write panics
(`none`) when the computed word index is outside the slice. -/
def QuickFilter.Add (qf : QuickFilter) (index : Int) : Option QuickFilter :=
  let i := (offsets index).1
  let mask := (offsets index).2
  if 0 ≤ i ∧ i.toNat < qf.bits.length then
    some { qf with
      bits := qf.bits.set i.toNat (Nat.lor (qf.bits.getD i.toNat 0) mask),
      len := qf.len + 1 }
  else none

/-- `Len()`. -/
def QuickFilter.Len (qf : QuickFilter) : Int := qf.len

/-- `Clear()`: zeroes every word, sets `len` to 0. -/
def QuickFilter.Clear (qf : QuickFilter) : QuickFilter :=
  { qf with bits := qf.bits.map (fun _ => 0), len := 0 }

/-- `Fill()`: sets every word to `^uint(0)` and `len` to `sourceLen`.
The source performs no boundary correction on the last word. -/
def QuickFilter.Fill (qf : QuickFilter) : QuickFilter :=
  { qf with bits := qf.bits.map (fun _ => allOnes), len := qf.sourceLen }

/-- `NewFilled(sourceLen)`. -/
def NewFilled (sourceLen : Int) : QuickFilter := (New sourceLen).Fill

/-- Go's builtin `copy(dst, src)`: overwrites the first
`min (length dst) (length src)` elements of `dst` with those of `src`. -/
def goCopy (dst src : List Nat) : List Nat :=
  src.take dst.length ++ dst.drop src.length

/-- `Copy()`: a fresh filter from `New(qf.sourceLen)`, words copied with
`copy`, `len` carried over. -/
def QuickFilter.Copy (qf : QuickFilter) : QuickFilter :=
  let qf2 := New qf.sourceLen
  { qf2 with bits := goCopy qf2.bits qf.bits, len := qf.len }

/-- `UnionOf(qf1, qf2)`: panics (`none`) unless the three word slices have
equal length; otherwise writes `qf1.bits[i] | qf2.bits[i]` into every word of
the receiver and recomputes `len` as the sum of full-word popcounts. -/
def QuickFilter.UnionOf (qf qf1 qf2 : QuickFilter) : Option QuickFilter :=
  if qf.bits.length = qf1.bits.length ∧ qf.bits.length = qf2.bits.length then
    let newBits := List.zipWith Nat.lor qf1.bits qf2.bits
    some { qf with bits := newBits, len := Int.ofNat ((newBits.map popcount).sum) }
  else none

structure Iterator where
  index : Int
  sourceLen : Int
  bits : List Nat
deriving DecidableEq

/-- `it.bits[index] & mask > 0` for the word index and mask of `pos`. During
iteration `pos` lies in `[0, sourceLen)`, and every filter of this package
allocates enough words for its `sourceLen`, so the slice access is in range;
`getD` with default 0 is only a totalization of the unreachable case. -/
def testAt (bits : List Nat) (pos : Int) : Bool :=
  decide (0 < Nat.land (bits.getD (offsets pos).1.toNat 0) (offsets pos).2)

/-- Fuel-indexed form of the `for` loop of `Next()`; the fuel bounds the
number of remaining loop iterations. -/
def scanFuel : Nat → List Nat → Int → Int → Int
  | 0, _, _, i => i
  | f + 1, bits, sourceLen, i =>
    if i < sourceLen then
      if testAt bits i then i else scanFuel f bits sourceLen (i + 1)
    else i

/-- The `for` loop of `Next()`: starting at candidate `i`, advance while
`i < sourceLen` and the bit at `i` is clear; return the final index. The
loop runs at most `sourceLen - i` times, so that much fuel is exact. -/
def scan (bits : List Nat) (sourceLen : Int) (i : Int) : Int :=
  scanFuel (sourceLen - i).toNat bits sourceLen i

/-- `Done()`: `index >= sourceLen`. -/
def Iterator.Done (it : Iterator) : Bool := decide (it.sourceLen ≤ it.index)

/-- `Next()`: `index++` then the scanning loop. -/
def Iterator.Next (it : Iterator) : Iterator :=
  { it with index := scan it.bits it.sourceLen (it.index + 1) }

/-- `Value()`. -/
def Iterator.Value (it : Iterator) : Int := it.index

/-- `Iterate()`: an iterator at index -1, advanced once by `Next`. -/
def QuickFilter.Iterate (qf : QuickFilter) : Iterator :=
  (Iterator.mk (-1) qf.sourceLen qf.bits).Next

/-- Fuel-indexed collection of the values of the caller-side loop
`for it := qf.Iterate(); !it.Done(); it = it.Next()`. -/
def toListFuel : Nat → Iterator → List Int
  | 0, _ => []
  | f + 1, it => if it.Done then [] else it.Value :: toListFuel f it.Next

/-- The list of values the loop `for it; !it.Done(); it = it.Next()` reads
from this iterator. Each step advances `index` by at least one, so
`sourceLen - index` iterations of fuel are exact. -/
def Iterator.toList (it : Iterator) : List Int :=
  toListFuel (it.sourceLen - it.index).toNat it

/-- The bit the package stores for position `p`: bit `p % W` of word
`p / W`. `Add` writes exactly this bit and `Next` tests it; the spec's
`has(p)` reads it. -/
def bitAt (bits : List Nat) (p : Nat) : Bool :=
  (bits.getD (p / wordSize) 0).testBit (p % wordSize)

/-- Spec-side membership reading of a filter (this snapshot of the source
has no `Has` method; this is the bit `Add(p)` sets). -/
def QuickFilter.hasBit (qf : QuickFilter) (p : Nat) : Bool := bitAt qf.bits p

/-- A sequence of `Add` calls, propagating a panic (`none`). -/
def addAll (qf : QuickFilter) (ps : List Nat) : Option QuickFilter :=
  ps.foldl (fun acc (p : Nat) => acc.bind (fun q => q.Add (p : Int))) (some qf)

/-- All bits at positions at or beyond `c` are clear. -/
def trailingZero (bits : List Nat) (c : Nat) : Prop :=
  ∀ p : Nat, c ≤ p → bitAt bits p = false

/-!
Heap model for aliasing claims. A Go slice is a pointer into a heap of
word arrays; `QuickFilter` values hold such a pointer in their `bits`
field. Mutators write through the pointer; `Copy` allocates a fresh array.
-/

structure Heap where
  arrays : Nat → List Nat
  next : Nat

/-- A `QuickFilter` whose `bits` slice is a heap pointer. -/
structure HQuickFilter where
  len : Int
  sourceLen : Int
  ptr : Nat

/-- Overwrite the array at pointer `p`. -/
def Heap.write (h : Heap) (p : Nat) (a : List Nat) : Heap :=
  { h with arrays := fun i => if i = p then a else h.arrays i }

/-- Allocate a fresh array, returning its pointer. -/
def Heap.alloc (h : Heap) (a : List Nat) : Heap × Nat :=
  ({ arrays := fun i => if i = h.next then a else h.arrays i, next := h.next + 1 }, h.next)

/-- The plain filter value seen through a heap pointer. -/
def hview (h : Heap) (q : HQuickFilter) : QuickFilter :=
  ⟨q.len, q.sourceLen, h.arrays q.ptr⟩

/-- `New` in the heap model: allocates the zeroed word array. -/
def HNew (h : Heap) (sourceLen : Int) : Heap × HQuickFilter :=
  let r := h.alloc (New sourceLen).bits
  (r.1, { len := 0, sourceLen := sourceLen, ptr := r.2 })

/-- `Add` in the heap model: writes the updated words through the
filter's own pointer. -/
def HAdd (h : Heap) (q : HQuickFilter) (index : Int) : Option (Heap × HQuickFilter) :=
  match (hview h q).Add index with
  | none => none
  | some qf => some (h.write q.ptr qf.bits, { q with len := qf.len })

/-- `Clear` in the heap model. -/
def HClear (h : Heap) (q : HQuickFilter) : Heap × HQuickFilter :=
  let qf := (hview h q).Clear
  (h.write q.ptr qf.bits, { q with len := qf.len })

/-- `Fill` in the heap model. -/
def HFill (h : Heap) (q : HQuickFilter) : Heap × HQuickFilter :=
  let qf := (hview h q).Fill
  (h.write q.ptr qf.bits, { q with len := qf.len })

/-- `Copy` in the heap model: allocates the fresh array of
`New(qf.sourceLen)` and copies the source's words into it. -/
def HCopy (h : Heap) (q : HQuickFilter) : Heap × HQuickFilter :=
  let r := h.alloc (goCopy (New q.sourceLen).bits (h.arrays q.ptr))
  (r.1, { len := q.len, sourceLen := q.sourceLen, ptr := r.2 })

/-! Helper lemmas. -/

theorem land_two_pow_pos (w k : Nat) : 0 < Nat.land w (2 ^ k) ↔ w.testBit k = true := by
  have h : Nat.land w (2 ^ k) = (w.testBit k).toNat * 2 ^ k := Nat.and_two_pow w k
  rw [h]
  cases hb : w.testBit k <;> simp [Nat.pos_pow_of_pos]

theorem offsets_coe (p : Nat) :
    offsets (p : Int) = (((p / wordSize : Nat) : Int), 2 ^ (p % wordSize)) := by
  unfold offsets wordSize
  refine Prod.ext ?_ ?_
  · show (p : Int).tdiv ((64 : Nat) : Int) = _
    rw [← Int.ofNat_tdiv]
  · show 2 ^ ((p : Int) % ((64 : Nat) : Int)).toNat = 2 ^ (p % 64)
    have h2 : (((p : Int) % ((64 : Nat) : Int))).toNat = p % 64 := by omega
    rw [h2]

theorem testAt_coe (bits : List Nat) (p : Nat) : testAt bits (p : Int) = bitAt bits p := by
  rw [Bool.eq_iff_iff]
  unfold testAt bitAt
  rw [offsets_coe]
  simp only [Int.toNat_natCast, decide_eq_true_eq]
  exact land_two_pow_pos _ _

theorem scanFuel_ge (f : Nat) (bits : List Nat) (L : Int) :
    ∀ i : Int, i ≤ scanFuel f bits L i := by
  induction f with
  | zero => intro i; simp [scanFuel]
  | succ f ih =>
    intro i
    unfold scanFuel
    by_cases h1 : i < L
    · rw [if_pos h1]
      by_cases h2 : testAt bits i = true
      · rw [if_pos h2]
      · rw [if_neg h2]
        have := ih (i + 1)
        omega
    · rw [if_neg h1]

theorem scan_ge (bits : List Nat) (L i : Int) : i ≤ scan bits L i :=
  scanFuel_ge _ bits L i

theorem scanFuel_le (f : Nat) (bits : List Nat) (L : Int) :
    ∀ i : Int, i ≤ L → scanFuel f bits L i ≤ L := by
  induction f with
  | zero => intro i h; simpa [scanFuel] using h
  | succ f ih =>
    intro i h
    unfold scanFuel
    by_cases h1 : i < L
    · rw [if_pos h1]
      by_cases h2 : testAt bits i = true
      · rw [if_pos h2]; omega
      · rw [if_neg h2]
        exact ih (i + 1) (by omega)
    · rw [if_neg h1]; omega

theorem scan_le (bits : List Nat) (L i : Int) (h : i ≤ L) : scan bits L i ≤ L :=
  scanFuel_le _ bits L i h

theorem scan_eq (bits : List Nat) (L i : Int) :
    scan bits L i = if i < L then (if testAt bits i then i else scan bits L (i + 1)) else i := by
  by_cases h : i < L
  · have h1 : (L - i).toNat = (L - (i + 1)).toNat + 1 := by omega
    rw [if_pos h, scan, h1]
    unfold scanFuel
    rw [if_pos h, scan]
  · have h0 : (L - i).toNat = 0 := by omega
    rw [if_neg h, scan, h0]
    rfl

theorem scan_eq_of_found (bits : List Nat) (L i : Int) (hi : i < L) (hb : testAt bits i = true) :
    scan bits L i = i := by
  rw [scan_eq, if_pos hi, hb]
  rfl

theorem scan_eq_of_clear (bits : List Nat) (L i : Int) (hi : i < L) (hb : testAt bits i = false) :
    scan bits L i = scan bits L (i + 1) := by
  rw [scan_eq, if_pos hi, hb]
  rfl

theorem scan_eq_of_done (bits : List Nat) (L i : Int) (hi : ¬i < L) : scan bits L i = i := by
  rw [scan_eq, if_neg hi]

theorem Next_index (it : Iterator) : it.Next.index = scan it.bits it.sourceLen (it.index + 1) :=
  rfl

theorem Next_index_gt (it : Iterator) : it.index < it.Next.index := by
  have := scan_ge it.bits it.sourceLen (it.index + 1)
  rw [Next_index]
  omega

theorem Done_false_iff (it : Iterator) : it.Done = false ↔ it.index < it.sourceLen := by
  unfold Iterator.Done
  rcases lt_or_le it.index it.sourceLen with h | h <;> simp [h]

theorem Done_true_iff (it : Iterator) : it.Done = true ↔ it.sourceLen ≤ it.index := by
  unfold Iterator.Done
  simp

theorem toListFuel_congr : ∀ f f' : Nat, ∀ it : Iterator,
    (it.sourceLen - it.index).toNat ≤ f → (it.sourceLen - it.index).toNat ≤ f' →
    toListFuel f it = toListFuel f' it := by
  intro f
  induction f with
  | zero =>
    intro f' it hf hf'
    have hd : it.Done = true := by rw [Done_true_iff]; omega
    cases f' with
    | zero => rfl
    | succ f' => simp [toListFuel, hd]
  | succ f ih =>
    intro f' it hf hf'
    cases f' with
    | zero =>
      have hd : it.Done = true := by rw [Done_true_iff]; omega
      simp [toListFuel, hd]
    | succ f' =>
      unfold toListFuel
      by_cases hd : it.Done = true
      · simp [hd]
      · have hdf : it.Done = false := by revert hd; cases it.Done <;> simp
        rw [if_neg hd, if_neg hd]
        have hlt : it.index < it.sourceLen := (Done_false_iff it).1 hdf
        have hstep : it.index + 1 ≤ it.Next.index := by
          have := Next_index_gt it
          omega
        have hsl : it.Next.sourceLen = it.sourceLen := rfl
        congr 1
        refine ih f' it.Next ?_ ?_ <;> rw [hsl] <;> omega

theorem toList_done (it : Iterator) (h : it.Done = true) : it.toList = [] := by
  rw [Iterator.toList]
  have h0 : (it.sourceLen - it.index).toNat = 0 := by
    rw [Done_true_iff] at h
    omega
  rw [h0]
  rfl

theorem toList_yield (it : Iterator) (h : it.Done = false) :
    it.toList = it.Value :: it.Next.toList := by
  have hlt : it.index < it.sourceLen := (Done_false_iff it).1 h
  have h1 : (it.sourceLen - it.index).toNat = (it.sourceLen - it.index - 1).toNat + 1 := by omega
  rw [Iterator.toList, h1]
  unfold toListFuel
  rw [if_neg (by simp [h])]
  congr 1
  have hstep : it.index + 1 ≤ it.Next.index := by
    have := Next_index_gt it
    omega
  have hsl : it.Next.sourceLen = it.sourceLen := rfl
  rw [Iterator.toList]
  exact toListFuel_congr _ _ it.Next (by rw [hsl]; omega) (le_refl _)

theorem toList_scan_eq (bits : List Nat) (L : Int) :
    ∀ n : Nat, ∀ i : Int, 0 ≤ i → i + n = L →
    Iterator.toList ⟨scan bits L i, L, bits⟩ =
      ((List.range' i.toNat n).filter (fun p => bitAt bits p)).map (fun p => (p : Int)) := by
  intro n
  induction n with
  | zero =>
    intro i h0 hL
    rw [scan_eq_of_done bits L i (by omega)]
    rw [toList_done _ (by rw [Done_true_iff]; show L ≤ i; omega)]
    simp
  | succ n ih =>
    intro i h0 hL
    have hi : i < L := by omega
    have hcast : ((i.toNat : Nat) : Int) = i := Int.toNat_of_nonneg h0
    have hsucc : (i + 1).toNat = i.toNat + 1 := by omega
    have hrange : List.range' i.toNat (n + 1) = i.toNat :: List.range' (i.toNat + 1) n :=
      List.range'_succ _ _ _
    have htest : testAt bits i = bitAt bits i.toNat := by
      rw [← testAt_coe bits i.toNat, hcast]
    have htail := ih (i + 1) (by omega) (by omega)
    rw [hsucc] at htail
    by_cases hb : bitAt bits i.toNat = true
    · rw [scan_eq_of_found bits L i hi (by rw [htest, hb])]
      rw [toList_yield _ (by rw [Done_false_iff]; exact hi)]
      have hnext : Iterator.Next ⟨i, L, bits⟩ = ⟨scan bits L (i + 1), L, bits⟩ := rfl
      rw [hnext, htail, hrange, List.filter_cons, if_pos hb]
      simp [Iterator.Value, hcast]
    · have hbf : bitAt bits i.toNat = false := by revert hb; cases bitAt bits i.toNat <;> simp
      rw [scan_eq_of_clear bits L i hi (by rw [htest, hbf])]
      rw [htail, hrange, List.filter_cons, if_neg (by rw [hbf]; simp)]

theorem Iterate_eq (qf : QuickFilter) :
    qf.Iterate = ⟨scan qf.bits qf.sourceLen 0, qf.sourceLen, qf.bits⟩ := by
  unfold QuickFilter.Iterate Iterator.Next
  norm_num

theorem Iterate_toList (qf : QuickFilter) (h : 0 ≤ qf.sourceLen) :
    qf.Iterate.toList =
      ((List.range qf.sourceLen.toNat).filter (fun p => bitAt qf.bits p)).map
        (fun p => (p : Int)) := by
  rw [Iterate_eq, List.range_eq_range']
  have h2 := toList_scan_eq qf.bits qf.sourceLen qf.sourceLen.toNat 0 le_rfl (by omega)
  simpa using h2

theorem bitAt_ge_words (bits : List Nat) (p : Nat) (h : bits.length ≤ p / wordSize) :
    bitAt bits p = false := by
  unfold bitAt
  rw [List.getD_eq_getElem?_getD, List.getElem?_eq_none h]
  exact Nat.zero_testBit _

theorem New_bits (C : Nat) :
    (New (C : Int)).bits = List.replicate ((C - 1) / wordSize + 1) 0 := by
  cases C with
  | zero => decide
  | succ k =>
    have h1 : ((k + 1 : Nat) : Int) - 1 = ((k : Nat) : Int) := by push_cast; ring
    have h2 : (offsets ((k : Nat) : Int)).1 = ((k / wordSize : Nat) : Int) := by
      rw [offsets_coe]
    have h3 : (((k / wordSize : Nat) : Int) + 1).toNat = k / wordSize + 1 := by
      generalize k / wordSize = m
      omega
    show List.replicate ((offsets (((k + 1 : Nat) : Int) - 1)).1 + 1).toNat 0 =
      List.replicate ((k + 1 - 1) / wordSize + 1) 0
    rw [h1, h2, h3]
    simp

theorem New_words (C : Nat) : (New (C : Int)).bits.length = (C - 1) / wordSize + 1 := by
  rw [New_bits]
  simp

theorem New_sourceLen (C : Nat) : (New (C : Int)).sourceLen = (C : Int) := rfl

theorem New_len (C : Nat) : (New (C : Int)).len = 0 := rfl

theorem bitAt_New (C p : Nat) : bitAt (New (C : Int)).bits p = false := by
  rw [New_bits]
  unfold bitAt
  rw [List.getD_eq_getElem?_getD, List.getElem?_replicate]
  split <;> simp [Nat.zero_testBit]

theorem div_lt_words (p C : Nat) (h : p < C) : p / wordSize < (C - 1) / wordSize + 1 := by
  unfold wordSize
  omega

theorem Add_coe_spec (qf : QuickFilter) (p : Nat) (hp : p / wordSize < qf.bits.length) :
    ∃ qf', qf.Add (p : Int) = some qf' ∧
      qf'.len = qf.len + 1 ∧ qf'.sourceLen = qf.sourceLen ∧
      qf'.bits.length = qf.bits.length ∧
      ∀ q : Nat, bitAt qf'.bits q = (bitAt qf.bits q || decide (q = p)) := by
  unfold QuickFilter.Add
  rw [offsets_coe]
  simp only [Int.toNat_natCast]
  rw [if_pos ⟨Int.natCast_nonneg _, hp⟩]
  refine ⟨_, rfl, rfl, rfl, by simp, ?_⟩
  intro q
  unfold bitAt
  rw [List.getD_eq_getElem?_getD, List.getD_eq_getElem?_getD, List.getElem?_set]
  by_cases hq : p / wordSize = q / wordSize
  · rw [if_pos hq, if_pos (hq ▸ hp)]
    simp only [Option.getD_some]
    rw [List.getD_eq_getElem?_getD]
    rw [show Nat.lor = fun a b => a ||| b from rfl]
    rw [Nat.testBit_lor]
    by_cases hm : q % wordSize = p % wordSize
    · have : q = p := by
        unfold wordSize at hq hm
        omega
      subst this
      simp [Nat.testBit_two_pow_self]
    · have hne : p % wordSize ≠ q % wordSize := fun h => hm h.symm
      have hqp : q ≠ p := by
        intro h
        exact hm (h ▸ rfl)
      rw [Nat.testBit_two_pow_of_ne hne]
      simp [hqp, hq]
  · rw [if_neg hq]
    have hqp : q ≠ p := by
      intro h
      exact hq (h ▸ rfl)
    simp [hqp]

theorem addAll_spec : ∀ ps : List Nat, ∀ qf : QuickFilter,
    (∀ p ∈ ps, p / wordSize < qf.bits.length) →
    ∃ qf', addAll qf ps = some qf' ∧
      qf'.len = qf.len + (ps.length : Int) ∧ qf'.sourceLen = qf.sourceLen ∧
      qf'.bits.length = qf.bits.length ∧
      ∀ q : Nat, bitAt qf'.bits q = (bitAt qf.bits q || decide (q ∈ ps)) := by
  intro ps
  induction ps with
  | nil =>
    intro qf _
    exact ⟨qf, rfl, by simp, rfl, rfl, by simp⟩
  | cons p ps ih =>
    intro qf hmem
    obtain ⟨qf1, hadd, hlen1, hsl1, hbl1, hbit1⟩ :=
      Add_coe_spec qf p (hmem p (List.mem_cons_self p ps))
    obtain ⟨qf2, hall, hlen2, hsl2, hbl2, hbit2⟩ :=
      ih qf1 (fun q hq => hbl1 ▸ hmem q (List.mem_cons_of_mem p hq))
    refine ⟨qf2, ?_, ?_, by rw [hsl2, hsl1], by rw [hbl2, hbl1], ?_⟩
    · unfold addAll
      rw [List.foldl_cons]
      have hb : (some qf).bind (fun q => q.Add (p : Int)) = some qf1 := by
        simpa using hadd
      rw [hb]
      unfold addAll at hall
      exact hall
    · rw [hlen2, hlen1]
      simp only [List.length_cons]
      push_cast
      ring
    · intro q
      rw [hbit2, hbit1]
      by_cases h1 : q = p <;> by_cases h2 : q ∈ ps <;>
        simp [h1, h2, List.mem_cons]

theorem Fill_bits (qf : QuickFilter) :
    qf.Fill.bits = List.replicate qf.bits.length allOnes := by
  unfold QuickFilter.Fill
  simp [List.map_const']

theorem Fill_len (qf : QuickFilter) : qf.Fill.len = qf.sourceLen := rfl

theorem bitAt_replicate_allOnes (n p : Nat) (h : p / wordSize < n) :
    bitAt (List.replicate n allOnes) p = true := by
  unfold bitAt
  rw [List.getD_eq_getElem?_getD, List.getElem?_replicate, if_pos h]
  unfold allOnes
  simp only [Option.getD_some]
  rw [Nat.testBit_two_pow_sub_one]
  have : p % wordSize < wordSize := Nat.mod_lt _ (by unfold wordSize; omega)
  simp [this]

theorem Clear_bitAt (qf : QuickFilter) (p : Nat) : bitAt qf.Clear.bits p = false := by
  show bitAt (List.map (fun _ => 0) qf.bits) p = false
  rw [List.map_const']
  unfold bitAt
  rw [List.getD_eq_getElem?_getD, List.getElem?_replicate]
  split <;> simp [Nat.zero_testBit]

theorem bitAt_cons_low (w : Nat) (t : List Nat) (p : Nat) (h : p < wordSize) :
    bitAt (w :: t) p = w.testBit p := by
  unfold bitAt
  rw [Nat.div_eq_of_lt h, Nat.mod_eq_of_lt h]
  rfl

theorem bitAt_cons_high (w : Nat) (t : List Nat) (p : Nat) :
    bitAt (w :: t) (wordSize + p) = bitAt t p := by
  unfold bitAt
  have h1 : (wordSize + p) / wordSize = p / wordSize + 1 := by unfold wordSize; omega
  have h2 : (wordSize + p) % wordSize = p % wordSize := by unfold wordSize; omega
  rw [h1, h2, List.getD_cons_succ]

theorem sum_popcount_eq (ws : List Nat) :
    (ws.map popcount).sum = (List.range (wordSize * ws.length)).countP (fun p => bitAt ws p) := by
  induction ws with
  | nil => simp
  | cons w t ih =>
    have hlen : wordSize * (w :: t).length = wordSize + wordSize * t.length := by
      simp [List.length_cons]
      ring
    have hHead : List.countP (fun p => bitAt (w :: t) p) (List.range wordSize) = popcount w := by
      unfold popcount
      refine List.countP_congr ?_
      intro x hx
      rw [List.mem_range] at hx
      rw [bitAt_cons_low w t x hx]
    have hTail : List.countP ((fun p => bitAt (w :: t) p) ∘ (fun x => wordSize + x))
        (List.range (wordSize * t.length)) =
        List.countP (fun p => bitAt t p) (List.range (wordSize * t.length)) := by
      refine List.countP_congr ?_
      intro x _
      show bitAt (w :: t) (wordSize + x) = true ↔ bitAt t x = true
      rw [bitAt_cons_high]
    rw [hlen, List.range_add, List.countP_append, List.countP_map, List.map_cons,
      List.sum_cons, ih, hHead, hTail]

theorem bitAt_zipWith_lor (b1 b2 : List Nat) (h : b1.length = b2.length) (p : Nat) :
    bitAt (List.zipWith Nat.lor b1 b2) p = (bitAt b1 p || bitAt b2 p) := by
  unfold bitAt
  rw [List.getD_eq_getElem?_getD, List.getD_eq_getElem?_getD, List.getD_eq_getElem?_getD,
    List.getElem?_zipWith]
  by_cases hlt : p / wordSize < b1.length
  · rw [List.getElem?_eq_getElem hlt, List.getElem?_eq_getElem (h ▸ hlt)]
    simp only [Option.getD_some]
    show Nat.testBit (_ ||| _) _ = _
    rw [Nat.testBit_lor]
  · have hge : b1.length ≤ p / wordSize := le_of_not_lt hlt
    rw [List.getElem?_eq_none hge, List.getElem?_eq_none (h ▸ hge)]
    simp [Nat.zero_testBit]

theorem countP_range_split (P : Nat → Bool) (C N : Nat) (h : C ≤ N)
    (hz : ∀ p, C ≤ p → p < N → P p = false) :
    (List.range N).countP P = (List.range C).countP P := by
  obtain ⟨d, rfl⟩ : ∃ d, N = C + d := ⟨N - C, by omega⟩
  rw [List.range_add, List.countP_append, List.countP_map]
  have hzero : List.countP (P ∘ (fun x => C + x)) (List.range d) = 0 := by
    rw [List.countP_eq_zero]
    intro a ha
    rw [List.mem_range] at ha
    simp [Function.comp, hz (C + a) (by omega) (by omega)]
  rw [hzero]
  simp

theorem UnionOf_some (qf qf1 qf2 : QuickFilter)
    (h1 : qf.bits.length = qf1.bits.length) (h2 : qf.bits.length = qf2.bits.length) :
    qf.UnionOf qf1 qf2 = some
      { len := Int.ofNat (((List.zipWith Nat.lor qf1.bits qf2.bits).map popcount).sum),
        sourceLen := qf.sourceLen,
        bits := List.zipWith Nat.lor qf1.bits qf2.bits } := by
  unfold QuickFilter.UnionOf
  rw [if_pos ⟨h1, h2⟩]

theorem UnionOf_none_iff (qf qf1 qf2 : QuickFilter) :
    qf.UnionOf qf1 qf2 = none ↔
      ¬(qf.bits.length = qf1.bits.length ∧ qf.bits.length = qf2.bits.length) := by
  unfold QuickFilter.UnionOf
  by_cases h : qf.bits.length = qf1.bits.length ∧ qf.bits.length = qf2.bits.length
  · rw [if_pos h]
    constructor
    · intro hc
      exact Option.noConfusion hc
    · intro hn
      exact absurd h hn
  · rw [if_neg h]
    simp [h]

theorem tdiv_of_neg (a : Int) (h : a < 0) : a.tdiv 64 = -((-a) / 64) := by
  have h1 : ((-(-a)).tdiv 64) = -((-a).tdiv 64) := Int.neg_tdiv (-a) 64
  rw [neg_neg] at h1
  rw [h1, Int.tdiv_eq_ediv (by omega) (by norm_num)]

theorem Add_none_iff (qf : QuickFilter) (p : Int) (hn : 1 ≤ qf.bits.length) :
    qf.Add p = none ↔
      (p ≤ -(wordSize : Int) ∨ (wordSize : Int) * (qf.bits.length : Int) ≤ p) := by
  have hoff : (offsets p).1 = p.tdiv 64 := by
    show p.tdiv ((wordSize : Nat) : Int) = p.tdiv 64
    norm_num [wordSize]
  have hcond : (0 ≤ (offsets p).1 ∧ ((offsets p).1).toNat < qf.bits.length) ↔
      (-(wordSize : Int) < p ∧ p < (wordSize : Int) * (qf.bits.length : Int)) := by
    rw [hoff]
    unfold wordSize
    push_cast
    rcases le_or_lt 0 p with hp | hp
    · rw [Int.tdiv_eq_ediv hp (by norm_num)]
      omega
    · rw [tdiv_of_neg p hp]
      omega
  unfold QuickFilter.Add
  by_cases h : 0 ≤ (offsets p).1 ∧ ((offsets p).1).toNat < qf.bits.length
  · rw [if_pos h]
    have h2 := hcond.1 h
    unfold wordSize at h2 ⊢
    push_cast at h2 ⊢
    constructor
    · intro hc
      exact absurd hc (by simp)
    · intro hor
      omega
  · rw [if_neg h]
    have h2 : ¬(-(wordSize : Int) < p ∧ p < (wordSize : Int) * (qf.bits.length : Int)) :=
      fun hc => h (hcond.2 hc)
    unfold wordSize at h2 ⊢
    push_cast at h2 ⊢
    refine ⟨fun _ => ?_, fun _ => rfl⟩
    omega

theorem goCopy_eq_of_length (dst src : List Nat) (h : dst.length = src.length) :
    goCopy dst src = src := by
  unfold goCopy
  rw [h, List.take_length, ← h, List.drop_length]
  simp

theorem trailingZero_single (w C : Nat) (h : w < 2 ^ C) : trailingZero [w] C := by
  intro p hp
  rcases Nat.lt_or_ge p wordSize with hlt | hge
  · rw [bitAt_cons_low w [] p hlt]
    exact Nat.testBit_lt_two_pow
      (lt_of_lt_of_le h (Nat.pow_le_pow_right (by norm_num) hp))
  · refine bitAt_ge_words [w] p ?_
    have h1 : 1 ≤ p / wordSize := by
      rw [Nat.one_le_div_iff (by unfold wordSize; omega)]
      exact hge
    simpa using h1

/-!
Claim theorems.
-/

/-- C5 (counterexample): `New(0)` allocates one word, not the zero words the
claim's `ceil(0 / W) = 0` demands. -/
theorem C5_counterexample :
    (New 0).bits.length = 1 ∧ ¬((New 0).bits.length = 0) := by decide

/-- C5 (amended): for every capacity `C ≥ 0`, `New(C)` returns an empty
filter (`Len() = 0`, all words zero) whose word count is
`(C - 1) tdiv W + 1`; this equals `ceil(C / W)` for `C ≥ 1` but is 1 (not 0)
for `C = 0`. -/
theorem C5_create_shape (C : Nat) :
    (New (C : Int)).Len = 0 ∧ (New (C : Int)).sourceLen = (C : Int) ∧
    (∀ w ∈ (New (C : Int)).bits, w = 0) ∧
    (New (C : Int)).bits.length = (C - 1) / wordSize + 1 ∧
    (1 ≤ C → (New (C : Int)).bits.length = (C + wordSize - 1) / wordSize) := by
  refine ⟨rfl, rfl, ?_, New_words C, ?_⟩
  · rw [New_bits]
    intro w hw
    exact List.eq_of_mem_replicate hw
  · intro h
    rw [New_words]
    unfold wordSize
    omega

/-- C5 (witness): at capacity 130 the word count is `ceil(130 / 64) = 3`. -/
theorem C5_create_shape_witness :
    (New ((130 : Nat) : Int)).bits.length = (130 + wordSize - 1) / wordSize :=
  (C5_create_shape 130).2.2.2.2 (by decide)

/-- C8 (counterexample): capacities 10, 20, 30 all need one word, so
`UnionOf` accepts them silently even though the capacities differ. -/
theorem C8_counterexample :
    (New 10).sourceLen ≠ (New 20).sourceLen ∧
    (New 10).sourceLen ≠ (New 30).sourceLen ∧
    ((New 10).UnionOf (New 20) (New 30)).isSome = true := by decide

/-- C8 (amended): `UnionOf` panics exactly when the word-slice lengths
differ; operands whose capacities differ but occupy the same number of words
are accepted silently. -/
theorem C8_union_guard (qf qf1 qf2 : QuickFilter) :
    (qf.UnionOf qf1 qf2 = none ↔
      ¬(qf.bits.length = qf1.bits.length ∧ qf.bits.length = qf2.bits.length)) ∧
    (qf.bits.length = qf1.bits.length → qf.bits.length = qf2.bits.length →
      (qf.UnionOf qf1 qf2).isSome = true) := by
  refine ⟨UnionOf_none_iff qf qf1 qf2, ?_⟩
  intro h1 h2
  rw [UnionOf_some qf qf1 qf2 h1 h2]
  rfl

/-- C8 (witness): the guard accepts three one-word filters of different
capacities. -/
theorem C8_union_guard_witness :
    ((New 50).UnionOf (New 60) (New 64)).isSome = true :=
  (C8_union_guard (New 50) (New 60) (New 64)).2 (by decide) (by decide)

/-- C4 (counterexample): capacity 20, position 30 lies outside `[0, 20)` yet
inside the padding of the single word, so `Add(30)` silently succeeds, sets
a bit and bumps `Len` to 1 instead of panicking. -/
theorem C4_counterexample :
    (New 20).sourceLen ≤ 30 ∧
    ((New 20).Add 30).isSome = true ∧
    ((New 20).Add 30).map QuickFilter.Len = some 1 := by decide

/-- C4 (amended): `Add(p)` on `New(C)` fails with an index-range panic
exactly when the truncated word index `p / W` falls outside the slice, i.e.
when `p ≤ -W` or `p ≥ W * wordCount`; a position in the padding region
`[C, W * wordCount)` (or a negative position in `(-W, 0)`) is accepted
silently, sets a bit and increments `Len`. -/
theorem C4_add_guard (C : Nat) (p : Int) :
    ((New (C : Int)).Add p = none ↔
      (p ≤ -(wordSize : Int) ∨
        (wordSize : Int) * (((New (C : Int)).bits.length : Nat) : Int) ≤ p)) ∧
    (0 ≤ p → p < (wordSize : Int) * (((New (C : Int)).bits.length : Nat) : Int) →
      ∃ qf', (New (C : Int)).Add p = some qf' ∧ qf'.Len = 1) := by
  constructor
  · exact Add_none_iff (New (C : Int)) p
      (by rw [New_words]; exact Nat.succ_le_succ (Nat.zero_le _))
  · intro h0 hlt
    have hp : p.toNat / wordSize < (New (C : Int)).bits.length := by
      unfold wordSize at hlt ⊢
      push_cast at hlt
      omega
    obtain ⟨qf', hadd, hlen, _, _, _⟩ := Add_coe_spec (New (C : Int)) p.toNat hp
    rw [Int.toNat_of_nonneg h0] at hadd
    refine ⟨qf', hadd, ?_⟩
    rw [QuickFilter.Len, hlen, New_len]
    omega

/-- C4 (witness): `Add(30)` on capacity 20 silently succeeds with `Len` 1. -/
theorem C4_add_guard_witness :
    (∃ qf', (New ((20 : Nat) : Int)).Add 30 = some qf' ∧ qf'.Len = 1) ∧
    ((New ((20 : Nat) : Int)).Add 64 = none) := by
  constructor
  · exact (C4_add_guard 20 30).2 (by decide) (by decide)
  · exact ((C4_add_guard 20 64).1).2 (by decide)

/-- C2 (counterexample): after `Fill()` on capacity 20, the bit at position
20 — at/beyond capacity, i.e. a trailing padding bit — is set: `Fill`
performs no boundary correction. -/
theorem C2_counterexample :
    ((New 20).Fill).hasBit 20 = true ∧ (New 20).sourceLen ≤ 20 := by decide

/-- C2 (amended): `New` and `Clear` leave every bit clear (so trailing bits
are zero), and `Add` at an in-range position preserves cleared trailing
bits; but `Fill` sets every bit of every allocated word to one — including
the trailing bits at positions ≥ capacity, with no boundary correction —
and `UnionOf` leaves each bit, trailing bits included, as the OR of the
operands' bits. -/
theorem C2_trailing_bits (C : Nat) (qf : QuickFilter) (p : Nat) :
    (bitAt (New (C : Int)).bits p = false) ∧
    (qf.Clear.hasBit p = false) ∧
    (trailingZero qf.bits C → ∀ q : Nat, q < C → q / wordSize < qf.bits.length →
      ∃ qf', qf.Add (q : Int) = some qf' ∧ trailingZero qf'.bits C) ∧
    (p / wordSize < qf.bits.length → qf.Fill.hasBit p = true) ∧
    (∀ qf1 qf2 u, qf.bits.length = qf1.bits.length → qf.bits.length = qf2.bits.length →
      qf.UnionOf qf1 qf2 = some u →
      ∀ q : Nat, u.hasBit q = (qf1.hasBit q || qf2.hasBit q)) := by
  refine ⟨bitAt_New C p, Clear_bitAt qf p, ?_, ?_, ?_⟩
  · intro hz q hq hqw
    obtain ⟨qf', hadd, _, _, _, hbit⟩ := Add_coe_spec qf q hqw
    refine ⟨qf', hadd, ?_⟩
    intro r hr
    have hrq : r ≠ q := by omega
    rw [hbit r, hz r hr]
    simp [hrq]
  · intro hlt
    rw [QuickFilter.hasBit, Fill_bits]
    exact bitAt_replicate_allOnes _ p hlt
  · intro qf1 qf2 u h1 h2 hu q
    rw [UnionOf_some qf qf1 qf2 h1 h2] at hu
    injection hu with hu
    rw [← hu]
    show bitAt (List.zipWith Nat.lor qf1.bits qf2.bits) q = _
    exact bitAt_zipWith_lor qf1.bits qf2.bits (h1.symm.trans h2) q

/-- C2 (witness): on `New(20)` position 25 is clear, but after `Fill` it is
set even though `25 ≥ 20`. -/
theorem C2_trailing_bits_witness :
    bitAt (New ((20 : Nat) : Int)).bits 25 = false ∧
    ((New ((20 : Nat) : Int)).Fill).hasBit 25 = true := by
  refine ⟨(C2_trailing_bits 20 (New ((20 : Nat) : Int)) 25).1, ?_⟩
  exact (C2_trailing_bits 20 (New ((20 : Nat) : Int)) 25).2.2.2.1 (by decide)

/-- C1 (counterexample): both operands have capacity 20 (one word); the
first is `Fill`ed, so its whole word is ones, 44 of them padding bits. The
union's `Len` comes out 64, not the 20 positions below capacity at which an
operand has a bit. -/
theorem C1_counterexample :
    ((New 20).UnionOf ((New 20).Fill) (New 20)).map QuickFilter.Len = some 64 ∧
    ((List.range 20).countP
      (fun p => ((New 20).Fill).hasBit p || (New 20).hasBit p)) = 20 := by decide

/-- C1 (amended): `UnionOf(a, b)` recomputes `Len` as the sum of full-word
popcounts, so trailing padding bits set in an operand are counted; when
neither operand has any bit set at or beyond the common capacity `C`, the
resulting `Len` equals the number of positions `p` in `[0, C)` at which `a`
or `b` has the bit set. -/
theorem C1_union_cardinality (qf qf1 qf2 : QuickFilter) (C : Nat)
    (hl1 : qf.bits.length = qf1.bits.length) (hl2 : qf.bits.length = qf2.bits.length)
    (hC : C ≤ wordSize * qf.bits.length)
    (hz1 : trailingZero qf1.bits C) (hz2 : trailingZero qf2.bits C) :
    ∃ u, qf.UnionOf qf1 qf2 = some u ∧
      u.Len = (((List.range C).countP (fun p => qf1.hasBit p || qf2.hasBit p) : Nat) : Int) := by
  refine ⟨_, UnionOf_some qf qf1 qf2 hl1 hl2, ?_⟩
  show Int.ofNat (((List.zipWith Nat.lor qf1.bits qf2.bits).map popcount).sum) = _
  have hzlen : (List.zipWith Nat.lor qf1.bits qf2.bits).length = qf.bits.length := by
    rw [List.length_zipWith, ← hl1, ← hl2]
    simp
  have heq : ∀ p : Nat, bitAt (List.zipWith Nat.lor qf1.bits qf2.bits) p
      = (bitAt qf1.bits p || bitAt qf2.bits p) :=
    bitAt_zipWith_lor qf1.bits qf2.bits (hl1.symm.trans hl2)
  rw [sum_popcount_eq, hzlen]
  rw [countP_range_split _ C (wordSize * qf.bits.length) hC
    (fun p hp _ => by rw [heq p, hz1 p hp, hz2 p hp]; rfl)]
  rw [List.countP_congr (fun x _ => by rw [heq x])]
  rfl

/-- C1 (witness): one-word operands of capacity 20 with words 34 and 5 and
no trailing bits; the union has bits `{0, 1, 2, 5}` and `Len` 4. -/
theorem C1_union_cardinality_witness :
    ((New ((20 : Nat) : Int)).UnionOf ⟨1, 20, [34]⟩ ⟨1, 20, [5]⟩).map QuickFilter.Len =
      some 4 := by
  obtain ⟨u, hu, hlen⟩ := C1_union_cardinality (New ((20 : Nat) : Int))
    ⟨1, 20, [34]⟩ ⟨1, 20, [5]⟩ 20 (by decide) (by decide) (by decide)
    (trailingZero_single 34 20 (by decide)) (trailingZero_single 5 20 (by decide))
  rw [hu, Option.map_some', hlen]
  decide

/-- C3: adding pairwise-distinct positions in `[0, C)` to `New(C)` yields a
filter whose `Len` is the number of positions added and whose iterator
yields exactly those positions, each once, in strictly ascending order (the
ascending filtered range), then is exhausted. -/
theorem C3_add_iterate (C : Nat) (ps : List Nat) (hnd : ps.Nodup)
    (hmem : ∀ p ∈ ps, p < C) :
    ∃ qf, addAll (New (C : Int)) ps = some qf ∧
      qf.Len = (ps.length : Int) ∧
      qf.Iterate.toList =
        ((List.range C).filter (fun p => decide (p ∈ ps))).map (fun p => (p : Int)) := by
  obtain ⟨qf, hall, hlen, hsl, hbl, hbit⟩ := addAll_spec ps (New (C : Int))
    (fun p hp => by rw [New_words]; exact div_lt_words p C (hmem p hp))
  refine ⟨qf, hall, ?_, ?_⟩
  · rw [QuickFilter.Len, hlen, New_len]
    omega
  · have hsl' : qf.sourceLen = (C : Int) := by rw [hsl]; rfl
    rw [Iterate_toList qf (by rw [hsl']; exact Int.natCast_nonneg C)]
    rw [hsl', Int.toNat_natCast]
    have hfeq : List.filter (fun p => bitAt qf.bits p) (List.range C) =
        List.filter (fun p => decide (p ∈ ps)) (List.range C) :=
      List.filter_congr (fun x _ => by rw [hbit x, bitAt_New]; simp)
    rw [hfeq]

/-- C3 (witness): capacity 8, adds at 0, 2, 4, 6 — `Len` 4 and iteration
order `[0, 2, 4, 6]`, the scenario of the package's `Example`. -/
theorem C3_add_iterate_witness :
    (addAll (New ((8 : Nat) : Int)) [0, 2, 4, 6]).map
      (fun qf => (qf.Len, qf.Iterate.toList)) = some (4, [0, 2, 4, 6]) := by
  obtain ⟨qf, h1, h2, h3⟩ := C3_add_iterate 8 [0, 2, 4, 6] (by decide) (by decide)
  rw [h1, Option.map_some', h2, h3]
  decide

/-- C6: filling a filter of capacity `C` (any word contents, with the word
count `New(C)` allocates) gives `Len() = C` exactly, and iterating yields
every position of `[0, C)` and nothing else — in particular nothing at or
beyond `C`, even when `C` is not a multiple of the word width. -/
theorem C6_fill_complete (C : Nat) (qf : QuickFilter)
    (hsl : qf.sourceLen = (C : Int))
    (hbl : qf.bits.length = (C - 1) / wordSize + 1) :
    qf.Fill.Len = (C : Int) ∧
    qf.Fill.Iterate.toList = (List.range C).map (fun p => (p : Int)) := by
  have hfsl : qf.Fill.sourceLen = (C : Int) := hsl
  constructor
  · rw [QuickFilter.Len, Fill_len, hsl]
  · rw [Iterate_toList _ (by rw [hfsl]; exact Int.natCast_nonneg C)]
    rw [hfsl, Int.toNat_natCast]
    have hall : ∀ x ∈ List.range C, bitAt qf.Fill.bits x = true := by
      intro x hx
      rw [List.mem_range] at hx
      rw [Fill_bits]
      exact bitAt_replicate_allOnes _ x (hbl ▸ div_lt_words x C hx)
    rw [List.filter_congr (fun x hx => by rw [hall x hx])]
    rw [List.filter_true]

/-- C6 (witness): capacity 20 with word width 64 — `Fill` gives `Len` 20 and
iteration yields exactly `[0, …, 19]`. -/
theorem C6_fill_complete_witness :
    ((New ((20 : Nat) : Int)).Fill).Len = ((20 : Nat) : Int) ∧
    ((New ((20 : Nat) : Int)).Fill).Iterate.toList =
      (List.range 20).map (fun p => (p : Int)) :=
  C6_fill_complete 20 (New ((20 : Nat) : Int)) rfl (by decide)

theorem iterate_Next_sourceLen (it : Iterator) (n : Nat) :
    ((Iterator.Next)^[n] it).sourceLen = it.sourceLen := by
  induction n with
  | zero => rfl
  | succ n ih =>
    rw [Function.iterate_succ_apply', ← ih]
    rfl

theorem iterate_Next_index_ge (it : Iterator) (n : Nat) :
    it.index + n ≤ ((Iterator.Next)^[n] it).index := by
  induction n with
  | zero => simp
  | succ n ih =>
    rw [Function.iterate_succ_apply']
    have h2 := Next_index_gt ((Iterator.Next)^[n] it)
    push_cast
    omega

/-- C7: from any iterator obtained by `Iterate()`, each `Next()` strictly
increases the cursor; while not `Done` the value is strictly below the
capacity; and after at most `capacity` advances the iterator is `Done`. -/
theorem C7_iterator_progress (qf : QuickFilter) (n : Nat) :
    (((Iterator.Next)^[n] qf.Iterate).index < ((Iterator.Next)^[n + 1] qf.Iterate).index) ∧
    (((Iterator.Next)^[n] qf.Iterate).Done = false →
      ((Iterator.Next)^[n] qf.Iterate).Value < qf.sourceLen) ∧
    (((Iterator.Next)^[qf.sourceLen.toNat] qf.Iterate).Done = true) := by
  refine ⟨?_, ?_, ?_⟩
  · rw [Function.iterate_succ_apply']
    exact Next_index_gt _
  · intro hd
    have h1 := (Done_false_iff _).1 hd
    rw [iterate_Next_sourceLen] at h1
    exact h1
  · rw [Done_true_iff, iterate_Next_sourceLen]
    have h0 : (0 : Int) ≤ qf.Iterate.index := by
      rw [Iterate_eq]
      exact scan_ge qf.bits qf.sourceLen 0
    have hge := iterate_Next_index_ge qf.Iterate qf.sourceLen.toNat
    have hsl : qf.Iterate.sourceLen = qf.sourceLen := rfl
    have htn := Int.self_le_toNat qf.sourceLen
    rw [hsl]
    omega

/-- C7 (witness): on `NewFilled 3`, the fresh iterator is not `Done` and its
value 0 is below capacity 3; after 3 advances it is `Done`. -/
theorem C7_iterator_progress_witness :
    ((Iterator.Next)^[0] (NewFilled 3).Iterate).Value < (NewFilled 3).sourceLen ∧
    ((Iterator.Next)^[(NewFilled 3).sourceLen.toNat] (NewFilled 3).Iterate).Done = true :=
  ⟨(C7_iterator_progress (NewFilled 3) 0).2.1 (by decide),
   (C7_iterator_progress (NewFilled 3) 0).2.2⟩

/-- C10: `Value()` is total — it always returns the cursor; once `Done`, the
cursor is at or beyond capacity, so never a valid position; and at the first
transition to `Done` (from a not-`Done` state, or a fresh `Iterate()` on a
filter of nonnegative capacity) the value equals the capacity exactly. -/
theorem C10_value_total (it : Iterator) (qf : QuickFilter) :
    (it.Value = it.index) ∧
    (it.Done = true → it.sourceLen ≤ it.Value) ∧
    (it.Done = false → it.Next.Done = true → it.Next.Value = it.sourceLen) ∧
    (0 ≤ qf.sourceLen → qf.Iterate.Done = true → qf.Iterate.Value = qf.sourceLen) := by
  refine ⟨rfl, ?_, ?_, ?_⟩
  · intro hd
    exact (Done_true_iff it).1 hd
  · intro hd hnd
    have h1 := (Done_false_iff it).1 hd
    have h2 := (Done_true_iff _).1 hnd
    have h3 : it.Next.sourceLen = it.sourceLen := rfl
    rw [h3] at h2
    have h4 : it.Next.index ≤ it.sourceLen := by
      rw [Next_index]
      exact scan_le _ _ _ (by omega)
    show it.Next.index = it.sourceLen
    omega
  · intro h0 hd
    have h2 := (Done_true_iff _).1 hd
    have h3 : qf.Iterate.sourceLen = qf.sourceLen := rfl
    rw [h3] at h2
    have h4 : qf.Iterate.index ≤ qf.sourceLen := by
      rw [Iterate_eq]
      exact scan_le _ _ _ h0
    show qf.Iterate.index = qf.sourceLen
    omega

/-- C10 (witness): on the empty filter of capacity 5 the fresh iterator is
already exhausted and `Value()` returns 5, the capacity. -/
theorem C10_value_total_witness :
    ((New 5).Iterate).Value = (New 5).sourceLen :=
  (C10_value_total ((New 5).Iterate) (New 5)).2.2.2 (by decide) (by decide)

/-- C9: `Copy()` yields a filter with the same capacity, `Len`, and word
contents, stored in a freshly allocated array; mutating the copy with
`Add`, `Clear` or `Fill` writes only through the copy's pointer and leaves
the original's words (and its `len` field, which the copy carries by value)
untouched. -/
theorem C9_copy_independent (h : Heap) (q : HQuickFilter)
    (hptr : q.ptr < h.next)
    (hlen : (h.arrays q.ptr).length = (New q.sourceLen).bits.length) :
    ((HCopy h q).2).sourceLen = q.sourceLen ∧
    ((HCopy h q).2).len = q.len ∧
    ((HCopy h q).1.arrays ((HCopy h q).2).ptr = h.arrays q.ptr) ∧
    ((HCopy h q).1.arrays q.ptr = h.arrays q.ptr) ∧
    (∀ idx r, HAdd (HCopy h q).1 (HCopy h q).2 idx = some r →
      r.1.arrays q.ptr = h.arrays q.ptr) ∧
    ((HClear (HCopy h q).1 (HCopy h q).2).1.arrays q.ptr = h.arrays q.ptr) ∧
    ((HFill (HCopy h q).1 (HCopy h q).2).1.arrays q.ptr = h.arrays q.ptr) := by
  have hne : q.ptr ≠ h.next := by omega
  have hcp : ((HCopy h q).2).ptr = h.next := rfl
  have harrQ : (HCopy h q).1.arrays q.ptr =
      if q.ptr = h.next then goCopy (New q.sourceLen).bits (h.arrays q.ptr)
      else h.arrays q.ptr := rfl
  have harrC : (HCopy h q).1.arrays h.next =
      if h.next = h.next then goCopy (New q.sourceLen).bits (h.arrays q.ptr)
      else h.arrays h.next := rfl
  have horig : (HCopy h q).1.arrays q.ptr = h.arrays q.ptr := by
    rw [harrQ, if_neg hne]
  refine ⟨rfl, rfl, ?_, horig, ?_, ?_, ?_⟩
  · rw [hcp, harrC, if_pos rfl]
    exact goCopy_eq_of_length _ _ hlen.symm
  · intro idx r hr
    unfold HAdd at hr
    rcases hm : (hview (HCopy h q).1 (HCopy h q).2).Add idx with _ | qf
    · rw [hm] at hr
      exact Option.noConfusion hr
    · rw [hm] at hr
      injection hr with hr
      rw [← hr]
      show (if q.ptr = ((HCopy h q).2).ptr then qf.bits
        else (HCopy h q).1.arrays q.ptr) = h.arrays q.ptr
      rw [hcp, if_neg hne]
      exact horig
  · show (if q.ptr = ((HCopy h q).2).ptr then _ else (HCopy h q).1.arrays q.ptr) =
      h.arrays q.ptr
    rw [hcp, if_neg hne]
    exact horig
  · show (if q.ptr = ((HCopy h q).2).ptr then _ else (HCopy h q).1.arrays q.ptr) =
      h.arrays q.ptr
    rw [hcp, if_neg hne]
    exact horig

/-- C9 (witness): in a two-object heap holding a capacity-5 filter, copying
and then clearing the copy leaves the original's words unchanged. -/
theorem C9_copy_independent_witness :
    (HClear (HCopy (HNew ⟨fun _ => [], 0⟩ 5).1 (HNew ⟨fun _ => [], 0⟩ 5).2).1
        (HCopy (HNew ⟨fun _ => [], 0⟩ 5).1 (HNew ⟨fun _ => [], 0⟩ 5).2).2).1.arrays
      ((HNew ⟨fun _ => [], 0⟩ 5).2).ptr =
    (HNew ⟨fun _ => [], 0⟩ 5).1.arrays ((HNew ⟨fun _ => [], 0⟩ 5).2).ptr :=
  (C9_copy_independent (HNew ⟨fun _ => [], 0⟩ 5).1 (HNew ⟨fun _ => [], 0⟩ 5).2
    (by decide) (by decide)).2.2.2.2.2.1

end Quickfilter
